import Mathlib

/-!
Verification of the core engines of the icecast-hdhomerun repository:
the bounded drop-oldest chunk buffer and reader/writer loops of
src/pipe_writer.py, and the single-slot process supervisor of
src/process_runner.py.  Each definition is a shallow embedding of the
corresponding Python code; the mapping to source lines is given in the
doc comments.
-/

namespace IcecastHDHR

/-! Constants from src/pipe_writer.py, lines 29-41.  The Python source
computes the chunk counts with real-valued ceil; here ceil of a/b over
naturals is written (a + b - 1) / b, and ceil of 1.2 * n is
(6 * n + 4) / 5. -/

def OUTPUT_SAMPLE_RATE_HZ : Nat := 44100

def OUTPUT_SAMPLE_SIZE : Nat := 2

def OUTPUT_CHANNELS : Nat := 2

def OUTPUT_RATE_BYTES_PER_SEC : Nat :=
  OUTPUT_SAMPLE_RATE_HZ * OUTPUT_SAMPLE_SIZE * OUTPUT_CHANNELS

def IO_CHUNK_SIZE : Nat := 2048

/-- BUFFER_CHUNKS = ceil(OUTPUT_RATE_BYTES_PER_SEC * BUFFER_CAPACITY_SECS
/ IO_CHUNK_SIZE) with BUFFER_CAPACITY_SECS = 1.0 (pipe_writer.py line 36). -/
def BUFFER_CHUNKS : Nat :=
  (OUTPUT_RATE_BYTES_PER_SEC + IO_CHUNK_SIZE - 1) / IO_CHUNK_SIZE

/-- MAX_CHUNKS = ceil(BUFFER_CHUNKS * 1.2) (pipe_writer.py line 37). -/
def MAX_CHUNKS : Nat := (BUFFER_CHUNKS * 6 + 4) / 5

/-! The Chunk Buffer: a Python collections.deque with maxlen
(pipe_writer.py line 69).  Appending to a deque that is at maxlen
discards the element at the head; appending to a deque with maxlen = 0
leaves it empty.  Both behaviours are captured by appending and then
dropping the head exactly when the deque was full, written with
List.tail. -/

/-- One append on a deque with maxlen (pipe_writer.py line 199:
self._audio_buffers.append(audio)). -/
def dequePush {α : Type} (maxlen : Nat) (buf : List α) (x : α) : List α :=
  if buf.length < maxlen then buf ++ [x] else (buf ++ [x]).tail

/-- A whole sequence of appends starting from a given buffer. -/
def pushAll {α : Type} (maxlen : Nat) (buf : List α) (xs : List α) : List α :=
  xs.foldl (dequePush maxlen) buf

/-- The last n elements of a list, in order. -/
def lastN {α : Type} (n : Nat) (l : List α) : List α :=
  l.drop (l.length - n)

/-! Interleaved operation sequences on the Chunk Buffer.  The producer
is the append in PipeWriter._reader (pipe_writer.py line 199); the
consumer is the popleft in PipeWriter._writer (line 142), whose
IndexError on an empty deque is caught and swallowed (lines 161-163).
The evicted flag records whether any append ever found the deque at
capacity, i.e. whether the deque ever discarded its oldest element. -/

inductive BufOp (α : Type) : Type where
  | push (x : α) : BufOp α
  | pop : BufOp α

structure BufState (α : Type) : Type where
  buf : List α
  out : List α
  evicted : Bool

/-- One producer/consumer operation on the Chunk Buffer. -/
def bufStep {α : Type} (N : Nat) (s : BufState α) : BufOp α → BufState α
  | .push x =>
    { s with
      buf := dequePush N s.buf x
      evicted := s.evicted || decide (N ≤ s.buf.length) }
  | .pop =>
    match s.buf with
    | [] => s
    | y :: rest => { s with buf := rest, out := s.out ++ [y] }

/-- Run an interleaved sequence of operations from the empty buffer. -/
def bufRun {α : Type} (N : Nat) (ops : List (BufOp α)) : BufState α :=
  ops.foldl (bufStep N) ⟨[], [], false⟩

/-- The chunks pushed by a sequence of operations, in push order. -/
def pushedOf {α : Type} : List (BufOp α) → List α
  | [] => []
  | .push x :: rest => x :: pushedOf rest
  | .pop :: rest => pushedOf rest

/-! The reader loop of PipeWriter._reader (pipe_writer.py lines
184-210).  The loop starts with buffering = True and
startup_buffer = MAX_CHUNKS / 2 (Python real division, i.e. 52.5); the
integer test len(audio_buffers) >= startup_buffer is equivalent to
MAX_CHUNKS ≤ 2 * len.  On each successful read the chunk is appended,
and then: in the buffering phase nothing is released; at the push whose
resulting occupancy reaches the threshold, buffering flips off and the
semaphore is released once per chunk currently in the buffer
(release(len(audio_buffers)), line 208); afterwards each push releases
exactly once (line 210).  This model covers the reader side alone, with
no concurrent pops. -/

structure ReaderState (α : Type) : Type where
  buf : List α
  buffering : Bool

/-- One reader iteration after a successful read: append the chunk,
then release the semaphore according to the two-phase policy.  Returns
the new state and the number of semaphore releases performed. -/
def readerPush {α : Type} (s : ReaderState α) (x : α) : ReaderState α × Nat :=
  let buf2 := dequePush MAX_CHUNKS s.buf x
  if s.buffering then
    if MAX_CHUNKS ≤ 2 * buf2.length then
      (⟨buf2, false⟩, buf2.length)
    else
      (⟨buf2, true⟩, 0)
  else
    (⟨buf2, false⟩, 1)

/-- The reader loop over a sequence of incoming chunks, collecting the
per-push semaphore release counts. -/
def readerRunAux {α : Type} (s : ReaderState α) : List α → ReaderState α × List Nat
  | [] => (s, [])
  | x :: rest =>
    let p := readerPush s x
    let q := readerRunAux p.1 rest
    (q.1, p.2 :: q.2)

/-! The writer inner loop of PipeWriter._writer (pipe_writer.py lines
136-163) together with the reader releases, at the level of the shared
deque and the available-count semaphore.  The semaphore is
threading.Semaphore(0): a timed acquire succeeds exactly when the value
is positive and then decrements it, otherwise it times out after 100 ms
with no decrement; release(n) adds n.  After a successful acquire the
writer pops with popleft, and the IndexError raised on an empty deque
(the deque can lag the semaphore when eviction discards chunks, lines
139-141 and 201-204) is caught and swallowed (lines 161-163), so the
loop continues. -/

inductive WOutcome (α : Type) : Type where
  | timeout : WOutcome α
  | wrote (c : α) : WOutcome α
  | emptyRace : WOutcome α
  | raised : WOutcome α

/-- Python popleft as a fallible operation: IndexError on empty. -/
def popleftExcept {α : Type} : List α → Except Unit (α × List α)
  | [] => Except.error ()
  | c :: rest => Except.ok (c, rest)

structure RelayState (α : Type) : Type where
  buf : List α
  buffering : Bool
  sem : Int

/-- One inner-loop iteration of the writer: timed acquire, then a
popleft whose IndexError is caught.  Returns the new state, the
outcome, and whether the loop continues; the raised outcome would mean
an exception escaping to the caller and is never produced. -/
def writerIter {α : Type} (s : RelayState α) : RelayState α × WOutcome α × Bool :=
  if 0 < s.sem then
    match popleftExcept s.buf with
    | Except.error _ => (⟨s.buf, s.buffering, s.sem - 1⟩, WOutcome.emptyRace, true)
    | Except.ok (c, rest) => (⟨rest, s.buffering, s.sem - 1⟩, WOutcome.wrote c, true)
  else
    (s, WOutcome.timeout, true)

/-- A reader push seen at the relay level: the deque append plus the
semaphore releases dictated by the two-phase fill policy. -/
def relayPush {α : Type} (s : RelayState α) (x : α) : RelayState α :=
  let p := readerPush ⟨s.buf, s.buffering⟩ x
  ⟨p.1.buf, p.1.buffering, s.sem + (p.2 : Int)⟩

inductive RelayOp (α : Type) : Type where
  | rpush (x : α) : RelayOp α
  | witer : RelayOp α

/-- Interleaving of reader pushes and writer iterations. -/
def relayStep {α : Type} (s : RelayState α) : RelayOp α → RelayState α
  | RelayOp.rpush x => relayPush s x
  | RelayOp.witer => (writerIter s).1

/-- Run an interleaving from the initial relay state: empty deque,
buffering phase, semaphore at zero. -/
def relayRun {α : Type} (ops : List (RelayOp α)) : RelayState α :=
  ops.foldl relayStep ⟨[], true, 0⟩

/-! The process supervisor, src/process_runner.py.  ProcessState is the
enum of src/process_state.py. -/

inductive ProcessState : Type where
  | STARTED : ProcessState
  | STOPPED : ProcessState
  | FINISHED : ProcessState
  | ERROR : ProcessState
deriving DecidableEq, Repr

/-- A child process as seen by ProcessRunner.stop (lines 88-109).
started models self dot process being not None; exited is the
returncode already visible when stop() is entered; termAfter / killAfter
give, for a live child, the number of 100 ms sleeps after terminate()
resp. kill() at which the returncode becomes visible (none: the signal
is ignored and the returncode never appears within the stage). -/
structure Child : Type where
  started : Bool
  exited : Option Int
  termAfter : Option Nat
  killAfter : Option Nat
deriving DecidableEq, Repr

structure StopResult : Type where
  success : Bool
  termSent : Bool
  killSent : Bool
  sleeps : Nat
deriving DecidableEq, Repr

/-- Each polling stage runs for i in range(0, 50) with a 0.1 s sleep. -/
def POLL_LIMIT : Nat := 50

/-- Milliseconds per poll sleep (time.sleep(0.1)). -/
def POLL_MS : Nat := 100

/-- Whether the returncode becomes visible within limit sleeps. -/
def exitsWithin (after : Option Nat) (limit : Nat) : Bool :=
  match after with
  | some k => decide (k ≤ limit)
  | none => false

/-- One polling stage (lines 95-98 and 103-106 plus the check after the
loop): the loop checks the returncode after i sleeps for i in
range(0, limit), and the code inspects it once more after the loop, so
an exit appearing after at most limit sleeps is detected.  Returns
whether the exit was detected and the number of sleeps performed. -/
def pollStage (after : Option Nat) (limit : Nat) : Bool × Nat :=
  match after with
  | some k => (decide (k ≤ limit), min k limit)
  | none => (false, limit)

/-- ProcessRunner.stop (lines 88-109) with a given per-stage poll
limit: immediate success when there is no live child; otherwise
terminate(), one polling stage, and if the child is still alive,
kill() and a second polling stage; success exactly when the exit was
detected. -/
def stopWith (limit : Nat) (c : Child) : StopResult :=
  if c.started && c.exited.isNone then
    let g := pollStage c.termAfter limit
    if g.1 then ⟨true, true, false, g.2⟩
    else
      let k := pollStage c.killAfter limit
      ⟨k.1, true, true, g.2 + k.2⟩
  else ⟨true, false, false, 0⟩

/-- ProcessRunner.stop as written: 50 polls of 100 ms per stage. -/
def stop (c : Child) : StopResult := stopWith POLL_LIMIT c

/-- Modelled from the spec: the claimed stop() with grace budgets of
about 2.5 s, i.e. 25 polls of 100 ms per stage, for comparison with
stop, whose stages each allow 50 polls (5 s). -/
def stopSpecBudget (c : Child) : StopResult := stopWith 25 c

/-- ProcessRunner.is_running (lines 85-86). -/
def isRunningC (c : Child) : Bool := c.started && c.exited.isNone

/-- The watcher loop of ProcessRunner._start (lines 64-83) observed
through its callback events.  The argument list gives the exit codes of
the successive launches; an empty list means the current launch has not
exited yet.  After an exit the loop relaunches exactly when the break
condition (not restart or returncode < 0) is false. -/
inductive WEvent : Type where
  | evStarted : WEvent
  | evStopped (rc : Int) : WEvent
deriving DecidableEq, Repr

/-- The break test of line 82, transcribed: the loop continues (i.e.
relaunches) iff not (not restart or returncode < 0). -/
def relaunchGate (restart : Bool) (rc : Int) : Bool :=
  !(!restart || decide (rc < 0))

def watcherRun (restart : Bool) : List Int → List WEvent
  | [] => [WEvent.evStarted]
  | rc :: rest =>
    WEvent.evStarted :: WEvent.evStopped rc ::
      (if relaunchGate restart rc then watcherRun restart rest else [])

def isStart : WEvent → Bool
  | WEvent.evStarted => true
  | WEvent.evStopped _ => false

/-- Number of launches performed by the watcher. -/
def numStarts (restart : Bool) (rcs : List Int) : Nat :=
  ((watcherRun restart rcs).filter isStart).length

/-- Outcome of one intake iteration of ProcessRunner._manage (lines
41-51): take the next request from the queue; if the previous child is
live, invoke the full stop sequence (self.stop(), whose boolean result
the intake loop discards); then start the watcher for the new command
unconditionally.  priorAliveAtLaunch records whether the prior child is
still live at the moment the new command launches, i.e. whether stop
failed to reap it. -/
structure ManageOutcome : Type where
  stopInvoked : Bool
  priorAliveAtLaunch : Bool
  launched : Bool
deriving DecidableEq, Repr

def manageStep (prior : Option Child) : ManageOutcome :=
  match prior with
  | none => ⟨false, false, true⟩
  | some c =>
    if isRunningC c then ⟨true, !(stop c).success, true⟩
    else ⟨false, false, true⟩

/-- The request queue (queue.Queue) is FIFO: start() appends at the
tail (line 36) and the intake loop removes from the head (line 43). -/
def enqueue {α : Type} (q : List α) (x : α) : List α := q ++ [x]

/-- The queue contents after all submissions, in service order. -/
def submitAll {α : Type} (reqs : List α) : List α := reqs.foldl enqueue []

/-! PipeWriter construction and wait, pipe_writer.py lines 53-114. -/

structure PWInit : Type where
  readThreadStarted : Bool
  writeThreadStarted : Bool
  initEvents : List (ProcessState × Int)
deriving DecidableEq, Repr

/-- PipeWriter constructor (lines 53-83): when the audio output path is
not a FIFO it logs an error and returns with both thread fields still
None; no state callback can even be registered at that point (bind is
only callable after construction) and none is invoked.  When the path
is a FIFO both threads are started.  No callback is invoked in either
branch. -/
def pipeWriterInit (destIsFifo : Bool) : PWInit :=
  if destIsFifo then ⟨true, true, []⟩ else ⟨false, false, []⟩

/-- PipeWriter.is_running (lines 98-100): both thread objects exist and
both threads are alive. -/
def pw_is_running (p : PWInit) (readAlive writeAlive : Bool) : Bool :=
  p.readThreadStarted && p.writeThreadStarted && readAlive && writeAlive

/-- PipeWriter.wait (lines 102-114) on a relay whose construction
failed: the loop guard requires both thread fields to be non-None, so
the loop body never runs and the callback fires immediately with
FINISHED and code 0. -/
def waitAfterFailedInit : List (ProcessState × Int) := [(ProcessState.FINISHED, 0)]

/-! PipeWriter.wait on a successfully constructed relay (lines
102-114).  Time is discretised into iterations of the wait loop (one
join pair per iteration).  Each thread is described by the iteration at
which it would exit of its own accord (none: it keeps looping until
stopped) together with the shared cooperative-stop latency lat: the
reader and writer loops re-check the done flag on every bounded wait
(lines 125, 136, 191-192), so once the flag is set at iteration d the
thread is gone within lat further iterations.  Each wait-loop iteration
checks liveness in the guard; when the two threads are not both alive
it calls self.stop(), i.e. sets the done flag (lines 110-112, 93-96);
on loop exit the callback fires once with FINISHED and 0 (line 114). -/

structure ThreadsModel : Type where
  rExit : Option Nat
  wExit : Option Nat
  lat : Nat

/-- Whether a thread with natural exit time exitAt is still alive at
iteration t, given that the done flag was set at doneAt (if at all). -/
def aliveAt (exitAt : Option Nat) (doneAt : Option Nat) (lat : Nat) (t : Nat) : Bool :=
  match exitAt, doneAt with
  | some e, some d => decide (t < min e (d + lat))
  | some e, none => decide (t < e)
  | none, some d => decide (t < d + lat)
  | none, none => true

def bothDead (th : ThreadsModel) (d : Option Nat) (t : Nat) : Bool :=
  !(aliveAt th.rExit d th.lat t) && !(aliveAt th.wExit d th.lat t)

/-- The wait loop: at iteration t with done flag d, exit when neither
thread is alive; otherwise run one join round, setting the done flag
now unless both threads are still alive, and continue.  Fuel bounds the
number of iterations; the result is the exit iteration and the final
done flag. -/
def waitRun (th : ThreadsModel) : Nat → Nat → Option Nat → Option (Nat × Option Nat)
  | 0, _, _ => none
  | fuel + 1, t, d =>
    if (aliveAt th.rExit d th.lat t || aliveAt th.wExit d th.lat t) = true then
      waitRun th fuel (t + 1)
        (if (aliveAt th.rExit d th.lat t && aliveAt th.wExit d th.lat t) = true then d
         else some (d.getD t))
    else
      some (t, d)

/-- PipeWriter.wait: run the loop, then invoke the callback exactly
once with FINISHED and code 0. -/
def pwWait (th : ThreadsModel) (fuel : Nat) :
    Option ((Nat × Option Nat) × List (ProcessState × Int)) :=
  match waitRun th fuel 0 none with
  | some r => some (r, [(ProcessState.FINISHED, 0)])
  | none => none

theorem length_lastN {α : Type} (n : Nat) (l : List α) :
    (lastN n l).length = min n l.length := by
  simp [lastN]
  omega

theorem lastN_concat {α : Type} (N : Nat) (l : List α) (x : α) :
    lastN N (l ++ [x]) = dequePush N (lastN N l) x := by
  by_cases h : l.length < N
  · have h0 : l.length - N = 0 := by omega
    have h1 : l.length + 1 - N = 0 := by omega
    simp [lastN, dequePush, h0, h1, h]
  · push_neg at h
    have hlen : (lastN N l).length = N := by
      rw [length_lastN]; omega
    by_cases hN : N = 0
    · subst hN
      have hd : lastN 0 l = [] := by
        simp [lastN]
      simp [lastN, dequePush, hd]
    · have h2 : l.length + 1 - N = (l.length - N) + 1 := by omega
      have h3 : l.length - N + 1 ≤ l.length := by omega
      have hA : lastN N l ≠ [] := by
        intro hnil
        rw [hnil] at hlen
        simp at hlen
        omega
      rw [dequePush, if_neg (by omega)]
      rw [lastN, List.length_append, List.length_singleton, h2,
        List.drop_append_of_le_length h3]
      cases hAe : lastN N l with
      | nil => exact absurd hAe hA
      | cons a as =>
        have htl : as = l.drop (l.length - N + 1) := by
          have := congrArg List.tail hAe
          rw [lastN, List.tail_drop] at this
          simpa using this.symm
        simp only [List.cons_append, List.tail_cons]
        rw [htl]

theorem pushAll_nil_eq_lastN {α : Type} (N : Nat) (xs : List α) :
    pushAll N ([] : List α) xs = lastN N xs := by
  induction xs using List.reverseRecOn with
  | nil => simp [pushAll, lastN]
  | append_singleton ys y ih =>
    rw [pushAll, List.foldl_append]
    simp only [List.foldl_cons, List.foldl_nil]
    rw [show List.foldl (dequePush N) [] ys = pushAll N [] ys from rfl, ih,
      lastN_concat]

/-- Claim C1: for every capacity N and every sequence of pushes into the
Chunk Buffer (the deque created with maxlen), the occupancy after the
sequence equals min N count, the length never exceeds N at any
intermediate step, and the surviving chunks are exactly the most
recently pushed min N count chunks in their original relative order.
Every push is a total function: it never fails or blocks. -/
theorem chunk_buffer_push_bounded_drop_oldest {α : Type} (N : Nat) (xs : List α) :
    (pushAll N ([] : List α) xs).length = min N xs.length ∧
    (∀ i : Nat, (pushAll N ([] : List α) (xs.take i)).length ≤ N) ∧
    pushAll N ([] : List α) xs = lastN N xs := by
  refine ⟨?_, ?_, pushAll_nil_eq_lastN N xs⟩
  · rw [pushAll_nil_eq_lastN, length_lastN]
  · intro i
    rw [pushAll_nil_eq_lastN, length_lastN]
    exact min_le_left _ _

theorem bufFold_evicted_mono {α : Type} (N : Nat) (ops : List (BufOp α)) :
    ∀ s : BufState α, s.evicted = true → (ops.foldl (bufStep N) s).evicted = true := by
  induction ops with
  | nil => intro s h; simpa using h
  | cons op rest ih =>
    intro s h
    rw [List.foldl_cons]
    apply ih
    cases op with
    | push x => simp [bufStep, h]
    | pop =>
      cases hb : s.buf with
      | nil => simpa [bufStep, hb] using h
      | cons y ys => simpa [bufStep, hb] using h

theorem bufFold_no_evict {α : Type} (N : Nat) (ops : List (BufOp α)) :
    ∀ s : BufState α, (ops.foldl (bufStep N) s).evicted = false →
      (ops.foldl (bufStep N) s).out ++ (ops.foldl (bufStep N) s).buf =
        s.out ++ s.buf ++ pushedOf ops := by
  induction ops with
  | nil => intro s _; simp [pushedOf]
  | cons op rest ih =>
    intro s h
    rw [List.foldl_cons] at h ⊢
    have hstep : (bufStep N s op).evicted = false := by
      by_contra hc
      rw [Bool.not_eq_false] at hc
      rw [bufFold_evicted_mono N rest _ hc] at h
      exact absurd h (by simp)
    cases op with
    | push x =>
      have hlt : s.buf.length < N := by
        have : (s.evicted || decide (N ≤ s.buf.length)) = false := hstep
        simp at this
        omega
      have hps : bufStep N s (BufOp.push x) =
          { s with buf := s.buf ++ [x], evicted := s.evicted || decide (N ≤ s.buf.length) } := by
        simp [bufStep, dequePush, hlt]
      rw [hps] at h ⊢
      rw [ih _ h]
      simp [pushedOf]
    | pop =>
      cases hb : s.buf with
      | nil =>
        have hps : bufStep N s BufOp.pop = s := by simp [bufStep, hb]
        rw [hps] at h ⊢
        rw [ih _ h]
        simp [pushedOf, hb]
      | cons y ys =>
        have hps : bufStep N s BufOp.pop = { s with buf := ys, out := s.out ++ [y] } := by
          simp [bufStep, hb]
        rw [hps] at h ⊢
        rw [ih _ h]
        simp [pushedOf]

theorem bufRun_lt_no_evict {α : Type} (N : Nat) (ops : List (BufOp α))
    (h : ∀ i, i ≤ ops.length → (bufRun N (ops.take i)).buf.length < N) :
    (bufRun N ops).evicted = false := by
  induction ops using List.reverseRecOn with
  | nil => rfl
  | append_singleton ys op ih =>
    have hys : (bufRun N ys).evicted = false := by
      apply ih
      intro i hi
      have := h i (by simp; omega)
      rwa [List.take_append_of_le_length hi] at this
    have hlen : (bufRun N ys).buf.length < N := by
      have := h ys.length (by simp)
      rwa [List.take_append_of_le_length (le_refl _), List.take_length] at this
    rw [bufRun, List.foldl_append]
    cases op with
    | push x =>
      simp only [List.foldl_cons, List.foldl_nil]
      show (bufStep N (bufRun N ys) (BufOp.push x)).evicted = false
      simp [bufStep, hys]
      omega
    | pop =>
      simp only [List.foldl_cons, List.foldl_nil]
      show (bufStep N (bufRun N ys) BufOp.pop).evicted = false
      cases hb : (bufRun N ys).buf with
      | nil => simpa [bufStep, hb] using hys
      | cons y yy => simpa [bufStep, hb] using hys

/-- Claim C7: for every interleaved sequence of pushes and pops on a
Chunk Buffer of capacity N in which the occupancy stays below N at
every step (so no eviction occurs), no pushed chunk is lost: the chunks
popped so far followed by the chunks still buffered are exactly the
pushed chunks in push order, and in particular pop returns chunks in
exactly the order they were pushed. -/
theorem chunk_buffer_fifo_no_loss {α : Type} (N : Nat) (ops : List (BufOp α))
    (h : ∀ i, i ≤ ops.length → (bufRun N (ops.take i)).buf.length < N) :
    (bufRun N ops).out ++ (bufRun N ops).buf = pushedOf ops ∧
    ∃ rest, (bufRun N ops).out ++ rest = pushedOf ops := by
  have hev := bufRun_lt_no_evict N ops h
  have hmain := bufFold_no_evict N ops ⟨[], [], false⟩ hev
  simp at hmain
  exact ⟨hmain, (bufRun N ops).buf, hmain⟩

/-- Witness for C7 at a concrete unsaturated push/pop interleaving. -/
theorem chunk_buffer_fifo_no_loss_witness :
    (bufRun 3 [BufOp.push 1, BufOp.push 2, BufOp.pop, BufOp.push 3, BufOp.pop]).out ++
        (bufRun 3 [BufOp.push 1, BufOp.push 2, BufOp.pop, BufOp.push 3, BufOp.pop]).buf =
      pushedOf [BufOp.push 1, BufOp.push 2, BufOp.pop, BufOp.push 3, BufOp.pop] ∧
    ∃ rest, (bufRun 3 [BufOp.push 1, BufOp.push 2, BufOp.pop, BufOp.push 3, BufOp.pop]).out ++ rest =
      pushedOf [BufOp.push 1, BufOp.push 2, BufOp.pop, BufOp.push 3, BufOp.pop] :=
  chunk_buffer_fifo_no_loss 3 _ (by decide)

theorem MAX_CHUNKS_eq : MAX_CHUNKS = 105 := rfl

theorem readerRunAux_cons {α : Type} (s : ReaderState α) (x : α) (rest : List α) :
    (readerRunAux s (x :: rest)).2 =
      (readerPush s x).2 :: (readerRunAux (readerPush s x).1 rest).2 := rfl

theorem readerRun_streaming {α : Type} (xs : List α) :
    ∀ buf : List α,
      (readerRunAux (⟨buf, false⟩ : ReaderState α) xs).2 = List.replicate xs.length 1 := by
  induction xs with
  | nil => intro buf; simp [readerRunAux]
  | cons x rest ih =>
    intro buf
    have hp : readerPush (⟨buf, false⟩ : ReaderState α) x =
        (⟨dequePush MAX_CHUNKS buf x, false⟩, 1) := by
      simp [readerPush]
    rw [readerRunAux_cons, hp]
    simp [ih, List.replicate_succ]

theorem readerRun_all_buffering {α : Type} (xs : List α) :
    ∀ buf : List α, 2 * (buf.length + xs.length) < MAX_CHUNKS →
      (readerRunAux (⟨buf, true⟩ : ReaderState α) xs).2 = List.replicate xs.length 0 := by
  induction xs with
  | nil => intro buf _; simp [readerRunAux]
  | cons x rest ih =>
    intro buf h
    have hM : MAX_CHUNKS = 105 := rfl
    rw [hM] at h
    simp only [List.length_cons] at h
    have hlt : buf.length < MAX_CHUNKS := by rw [hM]; omega
    have hbuf2 : dequePush MAX_CHUNKS buf x = buf ++ [x] := by
      rw [dequePush, if_pos hlt]
    have hcross : ¬ MAX_CHUNKS ≤ 2 * (buf ++ [x]).length := by
      rw [hM]
      simp only [List.length_append, List.length_singleton]
      omega
    have hp : readerPush (⟨buf, true⟩ : ReaderState α) x = (⟨buf ++ [x], true⟩, 0) := by
      simp only [readerPush, hbuf2, if_true]
      rw [if_neg hcross]
    rw [readerRunAux_cons, hp]
    dsimp only
    have harg : 2 * ((buf ++ [x]).length + rest.length) < MAX_CHUNKS := by
      rw [hM]
      simp only [List.length_append, List.length_singleton]
      omega
    rw [ih (buf ++ [x]) harg]
    simp [List.replicate_succ]

theorem readerRun_crossing {α : Type} (xs : List α) :
    ∀ buf : List α, 2 * buf.length < MAX_CHUNKS →
      ¬ 2 * (buf.length + xs.length) < MAX_CHUNKS →
      (readerRunAux (⟨buf, true⟩ : ReaderState α) xs).2 =
        List.replicate (52 - buf.length) 0 ++
          53 :: List.replicate (xs.length - (53 - buf.length)) 1 := by
  induction xs with
  | nil =>
    intro buf h hnot
    simp only [List.length_nil, Nat.add_zero] at hnot
    exact absurd h hnot
  | cons x rest ih =>
    intro buf h hnot
    have hM : MAX_CHUNKS = 105 := rfl
    rw [hM] at h
    rw [hM] at hnot
    simp only [List.length_cons] at hnot
    have hlt : buf.length < MAX_CHUNKS := by rw [hM]; omega
    have hbuf2 : dequePush MAX_CHUNKS buf x = buf ++ [x] := by
      rw [dequePush, if_pos hlt]
    have hlen2 : (dequePush MAX_CHUNKS buf x).length = buf.length + 1 := by
      rw [hbuf2]; simp
    by_cases hm : 2 * (buf.length + 1) < 105
    · have hcross : ¬ MAX_CHUNKS ≤ 2 * (buf ++ [x]).length := by
        rw [hM]
        simp only [List.length_append, List.length_singleton]
        omega
      have hp : readerPush (⟨buf, true⟩ : ReaderState α) x = (⟨buf ++ [x], true⟩, 0) := by
        simp only [readerPush, hbuf2, if_true]
        rw [if_neg hcross]
      rw [readerRunAux_cons, hp]
      dsimp only
      have h1 : 2 * (buf ++ [x]).length < MAX_CHUNKS := by
        rw [hM]
        simp only [List.length_append, List.length_singleton]
        omega
      have h2 : ¬ 2 * ((buf ++ [x]).length + rest.length) < MAX_CHUNKS := by
        rw [hM]
        simp only [List.length_append, List.length_singleton]
        omega
      rw [ih (buf ++ [x]) h1 h2]
      simp only [List.length_append, List.length_singleton, List.length_cons]
      have h52 : 52 - buf.length = (52 - (buf.length + 1)) + 1 := by omega
      have h53 : rest.length + 1 - (53 - buf.length) =
          rest.length - (53 - (buf.length + 1)) := by omega
      rw [h52, h53, List.replicate_succ]
      simp
    · have hcross : MAX_CHUNKS ≤ 2 * (buf ++ [x]).length := by
        rw [hM]
        simp only [List.length_append, List.length_singleton]
        omega
      have h52 : buf.length = 52 := by omega
      have hp : readerPush (⟨buf, true⟩ : ReaderState α) x =
          (⟨buf ++ [x], false⟩, (buf ++ [x]).length) := by
        simp only [readerPush, hbuf2, if_true]
        rw [if_pos hcross]
      rw [readerRunAux_cons, hp]
      dsimp only
      rw [readerRun_streaming]
      simp only [List.length_append, List.length_singleton, List.length_cons, h52]
      simp

/-- Claim C8: the reader loop follows the two-phase fill policy.  With
MAX_CHUNKS = 105 and startup_buffer = MAX_CHUNKS / 2 = 52.5, each of
the first 52 pushes (occupancy below the threshold) releases the
semaphore zero times; the 53rd push crosses the threshold and releases
the semaphore once per chunk then in the buffer, i.e. 53 times; every
subsequent push releases it exactly once. -/
theorem reader_two_phase_fill (xs : List Nat) :
    MAX_CHUNKS = 105 ∧
    (readerRunAux (⟨[], true⟩ : ReaderState Nat) xs).2 =
      if 2 * xs.length < MAX_CHUNKS then List.replicate xs.length 0
      else List.replicate 52 0 ++ 53 :: List.replicate (xs.length - 53) 1 := by
  refine ⟨rfl, ?_⟩
  by_cases h : 2 * xs.length < MAX_CHUNKS
  · rw [if_pos h, readerRun_all_buffering xs ([] : List Nat) (by simpa using h)]
  · rw [if_neg h, readerRun_crossing xs ([] : List Nat) (by decide) (by simpa using h)]
    simp

theorem relayStep_sem_nonneg {α : Type} (s : RelayState α) (op : RelayOp α)
    (h : 0 ≤ s.sem) : 0 ≤ (relayStep s op).sem := by
  cases op with
  | rpush x =>
    simp only [relayStep, relayPush]
    have : (0 : Int) ≤ ((readerPush (⟨s.buf, s.buffering⟩ : ReaderState α) x).2 : Int) := by
      exact_mod_cast Nat.zero_le _
    omega
  | witer =>
    by_cases h1 : 0 < s.sem
    · cases hb : s.buf with
      | nil => simp [relayStep, writerIter, popleftExcept, hb, h1]; omega
      | cons c rest => simp [relayStep, writerIter, popleftExcept, hb, h1]; omega
    · simp [relayStep, writerIter, h1]
      exact h

theorem relayFold_sem_nonneg {α : Type} (ops : List (RelayOp α)) :
    ∀ s : RelayState α, 0 ≤ s.sem → 0 ≤ (ops.foldl relayStep s).sem := by
  induction ops with
  | nil => intro s h; simpa using h
  | cons op rest ih =>
    intro s h
    rw [List.foldl_cons]
    exact ih _ (relayStep_sem_nonneg s op h)

/-- Claim C9: a pop attempt on an empty Chunk Buffer is benign.  The
available-count semaphore is never driven below zero over any
interleaving of reader pushes and writer iterations (a timed acquire at
zero times out without decrementing), and when the semaphore overcounts
the deque so that a successful acquire meets an empty deque, the
IndexError is swallowed: the outcome is the benign emptyRace, nothing
escapes to the caller, and the writer loop continues. -/
theorem relay_pop_empty_benign (ops : List (RelayOp Nat)) (s : RelayState Nat) :
    0 ≤ (relayRun ops).sem ∧
    (0 ≤ s.sem → 0 ≤ (writerIter s).1.sem) ∧
    (writerIter s).2.2 = true ∧
    (s.buf = [] → 0 < s.sem → (writerIter s).2.1 = WOutcome.emptyRace) ∧
    (writerIter s).2.1 ≠ WOutcome.raised := by
  refine ⟨relayFold_sem_nonneg ops _ (by simp), ?_, ?_, ?_, ?_⟩
  · intro h
    have := relayStep_sem_nonneg s RelayOp.witer h
    simpa [relayStep] using this
  · by_cases h1 : 0 < s.sem
    · cases hb : s.buf with
      | nil => simp [writerIter, popleftExcept, hb, h1]
      | cons c rest => simp [writerIter, popleftExcept, hb, h1]
    · simp [writerIter, h1]
  · intro hb h1
    simp [writerIter, popleftExcept, hb, h1]
  · by_cases h1 : 0 < s.sem
    · cases hb : s.buf with
      | nil => simp [writerIter, popleftExcept, hb, h1]
      | cons c rest => simp [writerIter, popleftExcept, hb, h1]
    · simp [writerIter, h1]

/-- Witness for C9 at a concrete interleaving and a concrete
overcounted state (semaphore 2, empty deque). -/
theorem relay_pop_empty_benign_witness :
    0 ≤ (relayRun [RelayOp.rpush 7, RelayOp.witer]).sem ∧
    0 ≤ (writerIter (⟨[], true, 2⟩ : RelayState Nat)).1.sem ∧
    (writerIter (⟨[], true, 2⟩ : RelayState Nat)).2.2 = true ∧
    (writerIter (⟨[], true, 2⟩ : RelayState Nat)).2.1 = WOutcome.emptyRace ∧
    (writerIter (⟨[], true, 2⟩ : RelayState Nat)).2.1 ≠ WOutcome.raised := by
  have h := relay_pop_empty_benign [RelayOp.rpush 7, RelayOp.witer]
      (⟨[], true, 2⟩ : RelayState Nat)
  exact ⟨h.1, h.2.1 (by decide), h.2.2.1, h.2.2.2.1 rfl (by decide), h.2.2.2.2⟩

theorem process_stop_poll_counts : POLL_LIMIT * POLL_MS = 5000 := by decide

/-- Claim C2, corrected budgets: stop() returns success immediately
with no signals when no live child exists; on a live child it sends the
termination signal, polls every 100 ms up to 50 polls (a grace budget
of 5000 ms, not the claimed 2500 ms), sends the kill signal exactly
when the graceful stage did not observe the exit, polls again up to
50 polls, and returns success exactly when one of the two stages
observed the exit; it never escalates beyond the single kill. -/
theorem process_stop_behavior (c : Child) :
    ((c.started = false ∨ c.exited.isSome = true) →
      stop c = ⟨true, false, false, 0⟩) ∧
    (c.started = true → c.exited = none →
      (stop c).termSent = true ∧
      (stop c).killSent = !(exitsWithin c.termAfter POLL_LIMIT) ∧
      (stop c).success =
        (exitsWithin c.termAfter POLL_LIMIT || exitsWithin c.killAfter POLL_LIMIT) ∧
      (stop c).sleeps ≤ 2 * POLL_LIMIT ∧
      POLL_LIMIT * POLL_MS = 5000) := by
  constructor
  · intro h
    have hguard : (c.started && c.exited.isNone) = false := by
      cases h with
      | inl h1 => simp [h1]
      | inr h2 =>
        cases he : c.exited with
        | none => rw [he] at h2; simp at h2
        | some v => simp [he]
    simp [stop, stopWith, hguard]
  · intro hs he
    have hguard : (c.started && c.exited.isNone) = true := by simp [hs, he]
    have hP : POLL_LIMIT * POLL_MS = 5000 := by decide
    cases ht : c.termAfter with
    | none =>
      cases hka : c.killAfter with
      | none =>
        simp [stop, stopWith, hguard, pollStage, exitsWithin, ht, hka, hP]
        omega
      | some j =>
        by_cases hj : j ≤ POLL_LIMIT
        · simp [stop, stopWith, hguard, pollStage, exitsWithin, ht, hka, hj, hP]
          omega
        · simp [stop, stopWith, hguard, pollStage, exitsWithin, ht, hka, hj, hP]
          omega
    | some k =>
      by_cases hk : k ≤ POLL_LIMIT
      · simp [stop, stopWith, hguard, pollStage, exitsWithin, ht, hk, hP]
        omega
      · cases hka : c.killAfter with
        | none =>
          simp [stop, stopWith, hguard, pollStage, exitsWithin, ht, hka, hk, hP]
          omega
        | some j =>
          by_cases hj : j ≤ POLL_LIMIT
          · simp [stop, stopWith, hguard, pollStage, exitsWithin, ht, hka, hk, hj, hP]
            omega
          · simp [stop, stopWith, hguard, pollStage, exitsWithin, ht, hka, hk, hj, hP]
            omega

/-- Witness for C2 on a live child that exits 300 ms after the
termination signal. -/
theorem process_stop_behavior_witness :
    (stop ⟨true, none, some 3, none⟩).termSent = true ∧
    (stop ⟨true, none, some 3, none⟩).killSent =
      !(exitsWithin (some 3) POLL_LIMIT) ∧
    (stop ⟨true, none, some 3, none⟩).success =
      (exitsWithin (some 3) POLL_LIMIT || exitsWithin none POLL_LIMIT) ∧
    (stop ⟨true, none, some 3, none⟩).sleeps ≤ 2 * POLL_LIMIT ∧
    POLL_LIMIT * POLL_MS = 5000 :=
  (process_stop_behavior ⟨true, none, some 3, none⟩).2 rfl rfl

/-- Counterexample to C2 as stated: a live child whose returncode
appears 40 polls (4.0 s) after the termination signal.  With the
claimed grace budget of about 2.5 s, stop() would have escalated to
kill (and here, failed); the implementation instead succeeds within
the graceful stage, never sending kill, after 4000 ms of polling. -/
theorem process_stop_grace_budget_cex :
    (stop ⟨true, none, some 40, none⟩).success = true ∧
    (stop ⟨true, none, some 40, none⟩).killSent = false ∧
    (stop ⟨true, none, some 40, none⟩).sleeps * POLL_MS = 4000 ∧
    (stopSpecBudget ⟨true, none, some 40, none⟩).killSent = true ∧
    (stopSpecBudget ⟨true, none, some 40, none⟩).success = false ∧
    stop ⟨true, none, some 40, none⟩ ≠ stopSpecBudget ⟨true, none, some 40, none⟩ := by
  decide

theorem numStarts_cons (restart : Bool) (rc : Int) (rest : List Int) :
    numStarts restart (rc :: rest) =
      1 + (if relaunchGate restart rc then numStarts restart rest else 0) := by
  by_cases h : relaunchGate restart rc = true
  · simp [numStarts, watcherRun, h, isStart]
    omega
  · simp [numStarts, watcherRun, h, isStart]

theorem numStarts_pos (restart : Bool) (rcs : List Int) : 1 ≤ numStarts restart rcs := by
  cases rcs with
  | nil => simp [numStarts, watcherRun, isStart]
  | cons rc rest =>
    rw [numStarts_cons]
    omega

/-- Claim C3: with restart set, the watcher relaunches the same command
after an exit exactly when the exit code is non-negative (so a code-0
exit is relaunched and a negative signal-style code ends the watcher),
and with restart unset the watcher ends after one exit regardless of
the code.  The break condition of line 82 equals restart and
0 ≤ returncode. -/
theorem watcher_restart_policy (rc : Int) (rest : List Int) :
    (2 ≤ numStarts true (rc :: rest) ↔ 0 ≤ rc) ∧
    numStarts false (rc :: rest) = 1 ∧
    ∀ b : Bool, relaunchGate b rc = (b && decide (0 ≤ rc)) := by
  have hg : ∀ b : Bool, relaunchGate b rc = (b && decide (0 ≤ rc)) := by
    intro b
    cases b
    · simp [relaunchGate]
    · by_cases h : rc < 0
      · have h2 : ¬ 0 ≤ rc := by omega
        simp [relaunchGate, h, h2]
      · have h2 : (0 : Int) ≤ rc := by omega
        simp [relaunchGate, h, h2]
  refine ⟨?_, ?_, hg⟩
  · rw [numStarts_cons, hg true]
    have hpos := numStarts_pos true rest
    by_cases h : 0 ≤ rc
    · have h1 : (true && decide (0 ≤ rc)) = true := by simp [h]
      rw [h1, if_pos rfl]
      constructor
      · intro _; exact h
      · intro _; omega
    · have h1 : (true && decide (0 ≤ rc)) = false := by simp [h]
      rw [h1, if_neg (by simp)]
      constructor
      · intro h2; omega
      · intro h2; exact absurd h2 h
  · rw [numStarts_cons, hg false]
    simp

/-- Witness for C3 at exit code 0 followed by a signal-style exit. -/
theorem watcher_restart_policy_witness :
    (2 ≤ numStarts true (0 :: [(-9 : Int)]) ↔ (0 : Int) ≤ 0) ∧
    numStarts false (0 :: [(-9 : Int)]) = 1 ∧
    (∀ b : Bool, relaunchGate b 0 = (b && decide ((0 : Int) ≤ 0))) :=
  watcher_restart_policy 0 [(-9 : Int)]

theorem foldl_enqueue {α : Type} (reqs : List α) :
    ∀ init : List α, reqs.foldl enqueue init = init ++ reqs := by
  induction reqs with
  | nil => intro init; simp
  | cons r rest ih =>
    intro init
    rw [List.foldl_cons, ih]
    simp [enqueue]

/-- Counterexample to C4 as stated: when the intake loop dequeues a
request while the prior child ignores both the termination and the kill
signal, stop() fails, its result is discarded, and the new command is
launched anyway while the prior child is still alive — two live
children overlap. -/
theorem manage_overlap_cex :
    (manageStep (some ⟨true, none, none, none⟩)).stopInvoked = true ∧
    (manageStep (some ⟨true, none, none, none⟩)).launched = true ∧
    (manageStep (some ⟨true, none, none, none⟩)).priorAliveAtLaunch = true := by
  decide

/-- Claim C4, corrected: requests are served strictly in submission
order (the intake queue is FIFO); whenever a request is dequeued while
the prior child is live the full stop sequence is invoked before the
launch; and the prior child is no longer live at the launch provided
stop() succeeded — when stop() fails the launch happens anyway, so the
no-overlap guarantee is conditional on the stop succeeding. -/
theorem manage_serialized_stop_before_launch {α : Type} (reqs : List α) (c : Child) :
    submitAll reqs = reqs ∧
    (isRunningC c = true → (manageStep (some c)).stopInvoked = true) ∧
    ((stop c).success = true → (manageStep (some c)).priorAliveAtLaunch = false) ∧
    (manageStep (some c)).launched = true := by
  refine ⟨by rw [submitAll, foldl_enqueue]; simp, ?_, ?_, ?_⟩
  · intro h
    simp [manageStep, h]
  · intro h
    by_cases hr : isRunningC c = true
    · simp [manageStep, hr, h]
    · simp [manageStep, hr]
  · by_cases hr : isRunningC c = true
    · simp [manageStep, hr]
    · simp [manageStep, hr]

/-- Witness for C4 on a three-request queue and a live child that
exits promptly after the termination signal. -/
theorem manage_serialized_stop_before_launch_witness :
    submitAll [1, 2, 3] = [1, 2, 3] ∧
    (manageStep (some ⟨true, none, some 0, none⟩)).stopInvoked = true ∧
    (manageStep (some ⟨true, none, some 0, none⟩)).priorAliveAtLaunch = false ∧
    (manageStep (some ⟨true, none, some 0, none⟩)).launched = true := by
  have h := manage_serialized_stop_before_launch [1, 2, 3] ⟨true, none, some 0, none⟩
  exact ⟨h.1, h.2.1 (by decide), h.2.2.1 (by decide), h.2.2.2⟩

/-- Counterexample to C5 as stated: construction with a non-FIFO
destination does fail fast with no threads started, but the failure is
never reported through the state callback as an error — no callback at
all is invoked during construction, and the only event the relay will
ever deliver (from a later wait()) is FINISHED with code 0, which is
not ERROR. -/
theorem pipewriter_init_error_not_reported_cex :
    (pipeWriterInit false).readThreadStarted = false ∧
    (pipeWriterInit false).writeThreadStarted = false ∧
    (pipeWriterInit false).initEvents = [] ∧
    waitAfterFailedInit = [(ProcessState.FINISHED, 0)] ∧
    ProcessState.FINISHED ≠ ProcessState.ERROR := by
  decide

/-- Claim C5, corrected: construction with a non-FIFO destination fails
fast — neither the reader nor the writer thread is started — but the
failure is only logged: no state callback is invoked at construction,
and no event with state ERROR is ever emitted. -/
theorem pipewriter_init_fail_fast :
    (pipeWriterInit false).readThreadStarted = false ∧
    (pipeWriterInit false).writeThreadStarted = false ∧
    (pipeWriterInit false).initEvents = [] ∧
    ((pipeWriterInit false).initEvents ++ waitAfterFailedInit).all
      (fun e => !decide (e.1 = ProcessState.ERROR)) = true := by
  decide

/-- Claim C10: after construction with a non-FIFO destination,
is_running() returns false for any thread-liveness readings, and wait()
returns immediately, invoking the callback with FINISHED and code 0 —
the construction failure is never surfaced as an error state through
the public interface. -/
theorem pipewriter_failed_init_public_interface :
    (∀ ra wa : Bool, pw_is_running (pipeWriterInit false) ra wa = false) ∧
    waitAfterFailedInit = [(ProcessState.FINISHED, 0)] ∧
    waitAfterFailedInit.all (fun e => !decide (e.1 = ProcessState.ERROR)) = true := by
  decide

theorem waitRun_succ (th : ThreadsModel) (fuel t : Nat) (d : Option Nat) :
    waitRun th (fuel + 1) t d =
      if (aliveAt th.rExit d th.lat t || aliveAt th.wExit d th.lat t) = true then
        waitRun th fuel (t + 1)
          (if (aliveAt th.rExit d th.lat t && aliveAt th.wExit d th.lat t) = true then d
           else some (d.getD t))
      else some (t, d) := rfl

theorem aliveAt_done_kill (e : Option Nat) (d0 lat t : Nat)
    (h : aliveAt e none lat t = false) : aliveAt e (some d0) lat t = false := by
  cases e with
  | none => simp [aliveAt] at h
  | some e0 =>
    simp [aliveAt] at h ⊢
    omega

theorem bothDead_not_alive (th : ThreadsModel) (d : Option Nat) (t : Nat)
    (h : bothDead th d t = true) :
    aliveAt th.rExit d th.lat t = false ∧ aliveAt th.wExit d th.lat t = false := by
  simp only [bothDead, Bool.and_eq_true, Bool.not_eq_true'] at h
  exact h

theorem waitRun_terminates (th : ThreadsModel) :
    ∀ fuel t d T, t ≤ T → T < t + fuel → bothDead th d T = true →
      ∃ T2 d2, waitRun th fuel t d = some (T2, d2) ∧ bothDead th d2 T2 = true := by
  intro fuel
  induction fuel with
  | zero => intro t d T h1 h2 _; omega
  | succ fuel ih =>
    intro t d T h1 h2 hT
    by_cases halive : (aliveAt th.rExit d th.lat t || aliveAt th.wExit d th.lat t) = true
    · have hne : t < T := by
        rcases Nat.lt_or_ge t T with hlt | hge
        · exact hlt
        · have heq : t = T := by omega
          subst heq
          obtain ⟨ha, hb⟩ := bothDead_not_alive th d t hT
          rw [ha, hb] at halive
          simp at halive
      have hT2 : bothDead th
          (if (aliveAt th.rExit d th.lat t && aliveAt th.wExit d th.lat t) = true then d
           else some (d.getD t)) T = true := by
        by_cases hboth : (aliveAt th.rExit d th.lat t && aliveAt th.wExit d th.lat t) = true
        · rw [if_pos hboth]; exact hT
        · rw [if_neg hboth]
          cases hd : d with
          | some d0 =>
            rw [hd] at hT
            simpa using hT
          | none =>
            rw [hd] at hT
            obtain ⟨ha, hb⟩ := bothDead_not_alive th none T hT
            rw [bothDead]
            simp only [Option.getD_none]
            rw [aliveAt_done_kill _ _ _ _ ha, aliveAt_done_kill _ _ _ _ hb]
            rfl
      obtain ⟨T2, dd, heq, hdead⟩ := ih (t + 1) _ T (by omega) (by omega) hT2
      refine ⟨T2, dd, ?_, hdead⟩
      rw [waitRun_succ, if_pos halive]
      exact heq
    · refine ⟨t, d, ?_, ?_⟩
      · rw [waitRun_succ, if_neg halive]
      · simp only [Bool.or_eq_true, not_or, Bool.not_eq_true] at halive
        rw [bothDead, halive.1, halive.2]
        rfl

theorem waitRun_bothAlive_steps (th : ThreadsModel) :
    ∀ k fuel t,
      (∀ s, t ≤ s → s < t + k →
        (aliveAt th.rExit none th.lat s && aliveAt th.wExit none th.lat s) = true) →
      waitRun th (fuel + k) t none = waitRun th fuel (t + k) none := by
  intro k
  induction k with
  | zero => intro fuel t _; rfl
  | succ k ih =>
    intro fuel t h
    have hb := h t (le_refl t) (by omega)
    have h1 : aliveAt th.rExit none th.lat t = true := by
      have hb2 := hb
      simp only [Bool.and_eq_true] at hb2
      exact hb2.1
    have hor : (aliveAt th.rExit none th.lat t || aliveAt th.wExit none th.lat t) = true := by
      rw [h1]
      rfl
    have hfs : fuel + (k + 1) = (fuel + k) + 1 := rfl
    rw [hfs, waitRun_succ, if_pos hor, if_pos hb]
    have harg : ∀ s, t + 1 ≤ s → s < (t + 1) + k →
        (aliveAt th.rExit none th.lat s && aliveAt th.wExit none th.lat s) = true := by
      intro s hs1 hs2
      exact h s (by omega) (by omega)
    rw [ih fuel (t + 1) harg]
    have ht : t + 1 + k = t + (k + 1) := by omega
    rw [ht]

theorem waitRun_reader_exits (th : ThreadsModel) (a : Nat)
    (hr : th.rExit = some a) (hw : th.wExit = none) :
    ∃ fuel T2 d2, waitRun th fuel 0 none = some (T2, d2) ∧
      bothDead th d2 T2 = true ∧ d2.isSome = true := by
  set T := max (a + th.lat) (a + 1) with hT
  have hphase : waitRun th ((T - a + 1) + a) 0 none = waitRun th (T - a + 1) a none := by
    have hall : ∀ s, 0 ≤ s → s < 0 + a →
        (aliveAt th.rExit none th.lat s && aliveAt th.wExit none th.lat s) = true := by
      intro s _ hs2
      rw [hr, hw]
      simp [aliveAt]
      omega
    have := waitRun_bothAlive_steps th a (T - a + 1) 0 hall
    simpa using this
  have hrA : aliveAt th.rExit none th.lat a = false := by
    rw [hr]; simp [aliveAt]
  have hwA : aliveAt th.wExit none th.lat a = true := by
    rw [hw]; rfl
  have hstep : waitRun th (T - a + 1) a none = waitRun th (T - a) (a + 1) (some a) := by
    rw [waitRun_succ, if_pos (by rw [hrA, hwA]; rfl), if_neg (by rw [hrA]; simp)]
    simp
  have hdead : bothDead th (some a) T = true := by
    rw [bothDead, hr, hw]
    simp [aliveAt]
    omega
  obtain ⟨T2, d2, heq, hdead2⟩ :=
    waitRun_terminates th (T - a) (a + 1) (some a) T (by omega) (by omega) hdead
  refine ⟨(T - a + 1) + a, T2, d2, ?_, hdead2, ?_⟩
  · rw [hphase, hstep, heq]
  · obtain ⟨h1, h2⟩ := bothDead_not_alive th d2 T2 hdead2
    rw [hw] at h2
    cases d2 with
    | none => simp [aliveAt] at h2
    | some x => rfl

theorem waitRun_swap (th : ThreadsModel) :
    ∀ fuel t d,
      waitRun (⟨th.wExit, th.rExit, th.lat⟩ : ThreadsModel) fuel t d = waitRun th fuel t d := by
  intro fuel
  induction fuel with
  | zero => intro t d; rfl
  | succ fuel ih =>
    intro t d
    rw [waitRun_succ, waitRun_succ]
    dsimp only
    rw [show (aliveAt th.wExit d th.lat t || aliveAt th.rExit d th.lat t) =
          (aliveAt th.rExit d th.lat t || aliveAt th.wExit d th.lat t) from Bool.or_comm _ _]
    rw [show (aliveAt th.wExit d th.lat t && aliveAt th.rExit d th.lat t) =
          (aliveAt th.rExit d th.lat t && aliveAt th.wExit d th.lat t) from Bool.and_comm _ _]
    by_cases hor : (aliveAt th.rExit d th.lat t || aliveAt th.wExit d th.lat t) = true
    · rw [if_pos hor, if_pos hor, ih]
    · rw [if_neg hor, if_neg hor]

theorem bothDead_swap (th : ThreadsModel) (d : Option Nat) (t : Nat) :
    bothDead (⟨th.wExit, th.rExit, th.lat⟩ : ThreadsModel) d t = bothDead th d t := by
  rw [bothDead, bothDead]
  dsimp only
  exact Bool.and_comm _ _

/-- Claim C6: on a successfully constructed relay, wait() returns only
once both the reader and the writer loop have exited; whenever one loop
exits of its own accord while the other would keep running, the wait
loop sets the cooperative stop flag so the other loop also exits within
its bounded poll latency (neither hangs waiting for the other); and
after both have exited the bound callback is invoked exactly once, with
FINISHED and code 0. -/
theorem pipewriter_wait_mutual_stop (th : ThreadsModel)
    (h : th.rExit.isSome = true ∨ th.wExit.isSome = true) :
    ∃ fuel T d,
      pwWait th fuel = some ((T, d), [(ProcessState.FINISHED, 0)]) ∧
      bothDead th d T = true ∧
      ((th.rExit = none ∨ th.wExit = none) → d.isSome = true) := by
  cases hr : th.rExit with
  | some a =>
    cases hw : th.wExit with
    | some b =>
      have hdead : bothDead th none (max a b) = true := by
        rw [bothDead, hr, hw]
        simp only [aliveAt, Bool.and_eq_true, Bool.not_eq_true', decide_eq_false_iff_not]
        omega
      obtain ⟨T2, d2, heq, hdead2⟩ :=
        waitRun_terminates th (max a b + 1) 0 none (max a b) (by omega) (by omega) hdead
      refine ⟨max a b + 1, T2, d2, by simp [pwWait, heq], hdead2, ?_⟩
      intro hor
      cases hor with
      | inl h1 => exact absurd h1 (by simp)
      | inr h1 => exact absurd h1 (by simp)
    | none =>
      obtain ⟨fuel, T2, d2, heq, hdead2, hsome⟩ := waitRun_reader_exits th a hr hw
      exact ⟨fuel, T2, d2, by simp [pwWait, heq], hdead2, fun _ => hsome⟩
  | none =>
    cases hw : th.wExit with
    | some b =>
      obtain ⟨fuel, T2, d2, heq, hdead2, hsome⟩ :=
        waitRun_reader_exits (⟨th.wExit, th.rExit, th.lat⟩ : ThreadsModel) b (by exact hw) (by exact hr)
      have heq2 : waitRun th fuel 0 none = some (T2, d2) :=
        (waitRun_swap th fuel 0 none).symm.trans heq
      have hdead3 : bothDead th d2 T2 = true := by
        rw [← bothDead_swap th d2 T2]
        exact hdead2
      exact ⟨fuel, T2, d2, by simp [pwWait, heq2], hdead3, fun _ => hsome⟩
    | none =>
      cases h with
      | inl h1 => rw [hr] at h1; simp at h1
      | inr h1 => rw [hw] at h1; simp at h1

/-- Witness for C6: a reader that reaches end of stream at iteration 2
while the writer loops until stopped, with stop latency 1. -/
theorem pipewriter_wait_mutual_stop_witness :
    ∃ fuel T d,
      pwWait (⟨some 2, none, 1⟩ : ThreadsModel) fuel =
        some ((T, d), [(ProcessState.FINISHED, 0)]) ∧
      bothDead (⟨some 2, none, 1⟩ : ThreadsModel) d T = true ∧
      (((⟨some 2, none, 1⟩ : ThreadsModel).rExit = none ∨
        (⟨some 2, none, 1⟩ : ThreadsModel).wExit = none) → d.isSome = true) :=
  pipewriter_wait_mutual_stop (⟨some 2, none, 1⟩ : ThreadsModel) (Or.inl rfl)

end IcecastHDHR
